import Mathlib

/-!
# Verification of the structural extractor of `flutter_unit_test/server.py`

This file gives a shallow embedding of the source-feature extractor
`extract_file_info` (and of the content branch of `generate_unit_test`)
from `src/flutter-unit-test/flutter_unit_test/server.py`, and proves or
refutes the specification claims about it.

The Python code drives everything through `re.findall` over seven regular
expressions.  We embed a small regular-expression engine with the exact
semantics CPython's `re` module uses for the constructs those patterns
contain: ordered alternation (leftmost branch preferred), greedy `*`, `+`
and `?` with full backtracking, character classes, one capturing group per
pattern, and `findall`-style scanning (leftmost match, non-overlapping,
scan resumes at the end of each match).  Each of the seven patterns is then
transcribed, node by node, from the regex literals in the source.

Character classes: CPython's `\w`, `\s` and `\S` also match some non-ASCII
code points; the claims and the spec only exercise ASCII, and we model the
ASCII fragment (`[a-zA-Z0-9_]`, `[ \t\n\r\x0b\x0c]`).
-/

/-- ASCII fragment of Python's `\w`: letters, digits and underscore. -/
def wordChar (c : Char) : Bool := c.isAlpha || c.isDigit || c == '_'

/-- ASCII fragment of Python's `\s`. -/
def spaceChar (c : Char) : Bool :=
  c == ' ' || c == '\t' || c == '\n' || c == '\r' || c == '\x0b' || c == '\x0c'

/-- Python's `\S` (complement of `\s`). -/
def nonSpaceChar (c : Char) : Bool := !(spaceChar c)

/-- The class `['"]` of the import pattern. -/
def quoteChar (c : Char) : Bool := c == '\'' || c == '"'

/-- The class `[^'"]` of the import pattern. -/
def notQuoteChar (c : Char) : Bool := !(quoteChar c)

/-- The class `[\w\s(),]` of the constructor pattern's initializer part. -/
def initListChar (c : Char) : Bool :=
  wordChar c || spaceChar c || c == '(' || c == ')' || c == ','

/-- Regular expressions over the constructs used by `server.py`:
empty word, single-character class, concatenation, ordered alternation,
greedy Kleene star, and a capturing group (each source pattern has exactly
one). -/
inductive RE where
  | eps : RE
  | pred : (Char → Bool) → RE
  | seq : RE → RE → RE
  | alt : RE → RE → RE
  | star : RE → RE
  | group : RE → RE

/-- Greedy star loop of the backtracking matcher: prefer one more iteration
of the body `m` (which must consume at least one character, as every starred
body in the source's patterns does) and fall back to the continuation `k`.
`fuel` bounds the number of iterations; `reRun` supplies `cs.length + 1`,
which is sufficient because every iteration consumes at least one
character. -/
def starRun (m : List Char → (List Char → Option (List Char) → Option α) →
    Option (List Char) → Option α) :
    Nat → List Char → (List Char → Option (List Char) → Option α) →
    Option (List Char) → Option α
  | 0, cs, k, c => k cs c
  | fuel+1, cs, k, c =>
    match m cs (fun cs2 c2 =>
        if cs2.length < cs.length then starRun m fuel cs2 k c2 else none) c with
    | some r => some r
    | none => k cs c

/-- Backtracking matcher in continuation-passing style, implementing
CPython `re` semantics for the constructs of `RE`: the continuation `k`
receives the unconsumed rest of the input and the current value of the
capturing group; alternatives are tried left to right, and the first
success of the whole continuation chain wins. -/
def reRun : RE → List Char → (List Char → Option (List Char) → Option α) →
    Option (List Char) → Option α
  | .eps, cs, k, c => k cs c
  | .pred p, cs, k, c =>
    match cs with
    | [] => none
    | ch :: t => if p ch then k t c else none
  | .seq a b, cs, k, c => reRun a cs (fun cs2 c2 => reRun b cs2 k c2) c
  | .alt a b, cs, k, c =>
    match reRun a cs k c with
    | some r => some r
    | none => reRun b cs k c
  | .star a, cs, k, c =>
    starRun (fun cs2 k2 c2 => reRun a cs2 k2 c2) (cs.length + 1) cs k c
  | .group a, cs, k, c =>
    reRun a cs (fun cs2 _ => k cs2 (some (cs.take (cs.length - cs2.length)))) c

/-- Initial continuation: report the unconsumed rest and the capture. -/
def initCont : List Char → Option (List Char) →
    Option (List Char × Option (List Char)) :=
  fun rest cap => some (rest, cap)

/-- `re.findall` scanning loop: try to match at the current position; on
success record the capture of group 1 and resume after the match (after an
empty match, resume one character later — our patterns never match the
empty word); on failure advance one character.  `fuel` bounds the number of
scanning steps. -/
def findallAux (re : RE) : Nat → List Char → List (List Char)
  | 0, _ => []
  | fuel+1, cs =>
    match reRun re cs initCont none with
    | some (rest, cap) =>
      if cs.length ≤ rest.length then
        cap.getD [] :: (match cs with
          | [] => []
          | _ :: t => findallAux re fuel t)
      else cap.getD [] :: findallAux re fuel rest
    | none =>
      match cs with
      | [] => []
      | _ :: t => findallAux re fuel t

/-- `re.findall pattern text`, as a list of the captures of group 1. -/
def findall (re : RE) (cs : List Char) : List (List Char) :=
  findallAux re (cs.length + 1) cs

/-- Single-character literal. -/
def chP (ch : Char) : RE := RE.pred (fun c => c == ch)

/-- Literal word, as a sequence of single-character literals. -/
def strL : List Char → RE
  | [] => .eps
  | ch :: t => .seq (chP ch) (strL t)

/-- `r+` is `r r*` (greedy). -/
def plusRE (r : RE) : RE := .seq r (.star r)

/-- `r?` prefers matching `r` over skipping it (greedy). -/
def optRE (r : RE) : RE := .alt r .eps

/-- Concatenation of a list of expressions. -/
def seqList : List RE → RE
  | [] => .eps
  | r :: t => .seq r (seqList t)

/-- Ordered alternation of a list of expressions (first preferred). -/
def altList : List RE → RE
  | [] => .pred (fun _ => false)
  | [r] => r
  | r :: t => .alt r (altList t)

/-- `\s` as a pattern. -/
def spP : RE := .pred spaceChar

/-- `\w` as a pattern. -/
def wP : RE := .pred wordChar

/-- `(?:@\w+\s+)*` — the annotation part shared by the method patterns. -/
def annotsRE : RE := .star (seqList [chP '@', plusRE wP, plusRE spP])

/-- `(?:static\s+)?`. -/
def staticOpt : RE := optRE (.seq (strL "static".data) (plusRE spP))

/-- `(?:<[^>]+>)?`. -/
def genericOpt : RE :=
  optRE (seqList [chP '<', plusRE (.pred (fun c => !(c == '>'))), chP '>'])

/-- `\([^)]*\)`. -/
def parensRE : RE :=
  seqList [chP '(', .star (.pred (fun c => !(c == ')'))), chP ')']

/-- `import\s+['"]([^'"]+)['"];` — line 76 of `server.py`. -/
def importRE : RE :=
  seqList [strL "import".data, plusRE spP, .pred quoteChar,
    .group (plusRE (.pred notQuoteChar)), .pred quoteChar, chP ';']

/-- `class\s+(\w+)(?:\s+extends|\s+implements|\s+with|\s*{)` — line 81. -/
def classRE : RE :=
  seqList [strL "class".data, plusRE spP, .group (plusRE wP),
    altList [.seq (plusRE spP) (strL "extends".data),
      .seq (plusRE spP) (strL "implements".data),
      .seq (plusRE spP) (strL "with".data),
      .seq (.star spP) (chP '{')]]

/-- The return-type alternation `(?:void|String|int|bool|double|num|Future|List|Map|Set|Stream|\w+)`. -/
def typeRE : RE :=
  altList [strL "void".data, strL "String".data, strL "int".data,
    strL "bool".data, strL "double".data, strL "num".data,
    strL "Future".data, strL "List".data, strL "Map".data,
    strL "Set".data, strL "Stream".data, plusRE wP]

/-- `(?:@\w+\s+)*(?:static\s+)?(?:void|…|\w+)(?:<[^>]+>)?\s+(\w+)\s*\([^)]*\)\s*(?:async\s*)?{`
— line 93 of `server.py` (regular methods). -/
def regularRE : RE :=
  seqList [annotsRE, staticOpt, typeRE, genericOpt, plusRE spP,
    .group (plusRE wP), .star spP, parensRE, .star spP,
    optRE (.seq (strL "async".data) (.star spP)), chP '{']

/-- `(?:@\w+\s+)*(?:const\s+)?(?:factory\s+)?` — the part of the
constructor pattern before its capturing group. -/
def ctorPre : RE :=
  seqList [annotsRE, optRE (.seq (strL "const".data) (plusRE spP)),
    optRE (.seq (strL "factory".data) (plusRE spP))]

/-- `\s*\([^)]*\)\s*(?::\s*[\w\s(),]+)?\s*{` — the part of the constructor
pattern after its capturing group. -/
def ctorPost : RE :=
  seqList [.star spP, parensRE, .star spP,
    optRE (seqList [chP ':', .star spP, plusRE (.pred initListChar)]),
    .star spP, chP '{']

/-- `(?:@\w+\s+)*(?:const\s+)?(?:factory\s+)?(CN(?:\.\w+)?)\s*\([^)]*\)\s*(?::\s*[\w\s(),]+)?\s*{`
— line 98 of `server.py`, with `CN` the `re.escape`d class name (the class
name is captured by `\w+`, on which `re.escape` is the identity).
Assembled as pre-part, capturing group `(CN(?:\.\w+)?)`, post-part. -/
def constructorRE (cn : List Char) : RE :=
  .seq ctorPre
    (.seq (.group (.seq (strL cn) (optRE (.seq (chP '.') (plusRE wP))))) ctorPost)

/-- `(?:@\w+\s+)*(?:static\s+)?(?:\w+(?:<[^>]+>)?)\s+get\s+(\w+)\s*(?:=>|{)`
— line 102 of `server.py` (getters). -/
def getterRE : RE :=
  seqList [annotsRE, staticOpt, plusRE wP, genericOpt, plusRE spP,
    strL "get".data, plusRE spP, .group (plusRE wP), .star spP,
    .alt (strL "=>".data) (chP '{')]

/-- `(?:@\w+\s+)*(?:static\s+)?set\s+(\w+)\s*\([^)]*\)\s*{`
— line 103 of `server.py` (setters). -/
def setterRE : RE :=
  seqList [annotsRE, staticOpt, strL "set".data, plusRE spP,
    .group (plusRE wP), .star spP, parensRE, .star spP, chP '{']

/-- `(?:@\w+\s+)*(?:\w+(?:<[^>]+>)?)\s+operator\s+(\S+)\s*\([^)]*\)\s*{`
— line 108 of `server.py` (operator overloads). -/
def operatorRE : RE :=
  seqList [annotsRE, plusRE wP, genericOpt, plusRE spP,
    strL "operator".data, plusRE spP, .group (plusRE (.pred nonSpaceChar)),
    .star spP, parensRE, .star spP, chP '{']

/-- `m.startswith('_')`. -/
def startsU : List Char → Bool
  | '_' :: _ => true
  | _ => false

/-- `exclude_keywords` — line 87 of `server.py`. -/
def excludeKeywords : List (List Char) :=
  ["if".data, "else".data, "for".data, "while".data, "switch".data,
   "case".data, "return".data, "break".data, "continue".data]

/-- Boolean list membership via `==` (Python's `in` on a list of strings). -/
def memL (m : List Char) : List (List Char) → Bool
  | [] => false
  | x :: t => x == m || memL m t

/-- Boolean word-in-word test: `prefixB n h` iff `n` is a prefix of `h`. -/
def prefixB : List Char → List Char → Bool
  | [], _ => true
  | _ :: _, [] => false
  | a :: as, b :: bs => a == b && prefixB as bs

/-- Boolean substring test (Python's `in` on strings). -/
def subStrB (n : List Char) : List Char → Bool
  | [] => prefixB n []
  | c :: t => prefixB n (c :: t) || subStrB n t

/-- Python's `str.split(sep)` for a non-empty separator: split at each
leftmost non-overlapping occurrence.  `fuel` bounds the scan; each step
consumes at least one character. -/
def pySplitAux (sep : List Char) : Nat → List Char → List Char → List (List Char)
  | 0, _, acc => [acc]
  | fuel+1, cs, acc =>
    if prefixB sep cs then acc :: pySplitAux sep fuel (cs.drop sep.length) []
    else match cs with
      | [] => [acc]
      | c :: t => pySplitAux sep fuel t (acc ++ [c])

/-- Python's `str.split(sep)`. -/
def pySplit (sep cs : List Char) : List (List Char) :=
  pySplitAux sep (cs.length + 1) cs []

/-- `'package:'`. -/
def markerL : List Char := "package:".data

/-- `imp.split('package:')[1].split('/')[0]` — line 123 of `server.py`. -/
def codeDep (imp : List Char) : List Char :=
  (pySplit ['/'] ((pySplit markerL imp).getD 1 [])).getD 0 []

/-- The dependency loop of lines 120–126 of `server.py`: for each import
containing `'package:'`, append its derived package name unless already
present. -/
def depsLoop (imports : List (List Char)) : List (List Char) :=
  imports.foldl (fun deps imp =>
    if subStrB markerL imp then
      (if memL (codeDep imp) deps then deps else deps ++ [codeDep imp])
    else deps) []

/-- First-seen-order deduplication.  The source computes
`list(set(methods))`, whose element order CPython leaves unspecified (it
depends on string hashing); the model fixes first-seen order, and every
claim touches `methods` only through membership, never through order. -/
def dedupAux : List (List Char) → List (List Char) → List (List Char)
  | _, [] => []
  | seen, m :: t =>
    if memL m seen then dedupAux seen t else m :: dedupAux (m :: seen) t

/-- The extractor's result record (`info` in `extract_file_info`). -/
structure FactSet where
  class_name : String
  dependencies : List String
  methods : List String
  imports : List String
deriving DecidableEq, Repr

/-- `extract_file_info` — lines 66–127 of `server.py`, with each regex scan
embedded through `findall` and the list pipeline transcribed in source
order: imports, class name, regular methods (dropping `_`-prefixed
captures), constructors (only when a class name was found, not
underscore-filtered), getters and setters (underscore-filtered), operators
(prefixed with `"operator "`), then the keyword filter, deduplication, and
the dependency loop. -/
def extract_file_info (file_content : String) : FactSet :=
  let cs := file_content.data
  let imports := findall importRE cs
  let class_name : List Char :=
    match findall classRE cs with
    | [] => []
    | c :: _ => c
  let regulars := (findall regularRE cs).filter (fun m => !(startsU m))
  let ctors := if class_name.isEmpty then [] else findall (constructorRE class_name) cs
  let getters := (findall getterRE cs).filter (fun m => !(startsU m))
  let setters := (findall setterRE cs).filter (fun m => !(startsU m))
  let ops := (findall operatorRE cs).map (fun op => "operator ".data ++ op)
  let methodsAll := regulars ++ ctors ++ getters ++ setters ++ ops
  let methodsF := methodsAll.filter (fun m => !(memL m excludeKeywords))
  { class_name := String.mk class_name
    dependencies := (depsLoop imports).map String.mk
    methods := (dedupAux [] methodsF).map String.mk
    imports := imports.map String.mk }

/-! ## List helpers -/

/-- `a` is a suffix of `b`. -/
def TailOf (a b : List Char) : Prop := ∃ pre, b = pre ++ a

theorem tailOf_refl (a : List Char) : TailOf a a := ⟨[], rfl⟩

theorem tailOf_trans {a b c : List Char} (h1 : TailOf a b) (h2 : TailOf b c) :
    TailOf a c := by
  obtain ⟨p, hp⟩ := h1
  obtain ⟨q, hq⟩ := h2
  exact ⟨q ++ p, by simp [hq, hp]⟩

theorem tailOf_cons {a b : List Char} (ch : Char) (h : TailOf a b) :
    TailOf a (ch :: b) := by
  obtain ⟨p, hp⟩ := h
  exact ⟨ch :: p, by simp [hp]⟩

theorem tailOf_length {a b : List Char} (h : TailOf a b) : a.length ≤ b.length := by
  obtain ⟨p, hp⟩ := h
  simp [hp]

theorem take_append_more (a b : List Char) (m : Nat) :
    (a ++ b).take (a.length + m) = a ++ b.take m := by
  induction a with
  | nil => simp
  | cons x t ih => simp [List.take, Nat.succ_add, ih]

theorem memL_iff_mem (m : List Char) (l : List (List Char)) :
    memL m l = true ↔ m ∈ l := by
  induction l with
  | nil => simp [memL]
  | cons x t ih =>
    simp only [memL, Bool.or_eq_true, beq_iff_eq, List.mem_cons, ih]
    constructor
    · rintro (h | h)
      · exact Or.inl h.symm
      · exact Or.inr h
    · rintro (h | h)
      · exact Or.inl h.symm
      · exact Or.inr h

theorem memL_append (m : List Char) (a b : List (List Char)) :
    memL m (a ++ b) = (memL m a || memL m b) := by
  induction a with
  | nil => simp [memL]
  | cons x t ih => simp [memL, ih, Bool.or_assoc]

theorem dedupAux_mem_sub {x : List Char} :
    ∀ (seen l : List (List Char)), x ∈ dedupAux seen l → x ∈ l := by
  intro seen l
  induction l generalizing seen with
  | nil => intro h; simp [dedupAux] at h
  | cons m t ih =>
    intro h
    simp only [dedupAux] at h
    by_cases hm : memL m seen = true
    · rw [if_pos hm] at h
      exact List.mem_cons_of_mem m (ih seen h)
    · rw [if_neg hm] at h
      rcases List.mem_cons.mp h with h | h
      · exact h ▸ List.mem_cons_self m t
      · exact List.mem_cons_of_mem m (ih (m :: seen) h)

theorem dedupAux_congr_seen :
    ∀ (l s1 s2 : List (List Char)), (∀ y, memL y s1 = memL y s2) →
    dedupAux s1 l = dedupAux s2 l := by
  intro l
  induction l with
  | nil => intro s1 s2 _; simp [dedupAux]
  | cons m t ih =>
    intro s1 s2 hs
    simp only [dedupAux, hs m]
    by_cases hm : memL m s2 = true
    · rw [if_pos hm, if_pos hm]
      exact ih s1 s2 hs
    · rw [if_neg hm, if_neg hm]
      refine congrArg (m :: ·) (ih (m :: s1) (m :: s2) ?_)
      intro y
      simp [memL, hs y]

/-! ## Engine unfolding equations and soundness -/

theorem reRun_eps {α : Type} (cs : List Char)
    (k : List Char → Option (List Char) → Option α) (c : Option (List Char)) :
    reRun .eps cs k c = k cs c := rfl

theorem reRun_seq {α : Type} (a b : RE) (cs : List Char)
    (k : List Char → Option (List Char) → Option α) (c : Option (List Char)) :
    reRun (.seq a b) cs k c = reRun a cs (fun cs2 c2 => reRun b cs2 k c2) c := rfl

theorem reRun_group {α : Type} (a : RE) (cs : List Char)
    (k : List Char → Option (List Char) → Option α) (c : Option (List Char)) :
    reRun (.group a) cs k c =
      reRun a cs (fun cs2 _ => k cs2 (some (cs.take (cs.length - cs2.length)))) c := rfl

/-- Soundness of the greedy star loop: a success calls the continuation on
a suffix of the input. -/
theorem starRun_sound {α : Type}
    (m : List Char → (List Char → Option (List Char) → Option α) →
      Option (List Char) → Option α)
    (hm : ∀ cs k c r, m cs k c = some r →
      ∃ rest cap, TailOf rest cs ∧ k rest cap = some r) :
    ∀ (fuel : Nat) (cs : List Char) k c (r : α), starRun m fuel cs k c = some r →
    ∃ rest cap, TailOf rest cs ∧ k rest cap = some r := by
  intro fuel
  induction fuel with
  | zero =>
    intro cs k c r h
    exact ⟨cs, c, tailOf_refl cs, h⟩
  | succ n ih =>
    intro cs k c r h
    simp only [starRun] at h
    cases hm2 : m cs (fun cs2 c2 =>
        if cs2.length < cs.length then starRun m n cs2 k c2 else none) c with
    | none =>
      rw [hm2] at h
      exact ⟨cs, c, tailOf_refl cs, h⟩
    | some r2 =>
      rw [hm2] at h
      injection h with h
      subst h
      obtain ⟨rest, cap, htail, hk⟩ := hm _ _ _ _ hm2
      by_cases hlen : rest.length < cs.length
      · rw [if_pos hlen] at hk
        obtain ⟨rest2, cap2, htail2, hk2⟩ := ih rest k cap r2 hk
        exact ⟨rest2, cap2, tailOf_trans htail2 htail, hk2⟩
      · rw [if_neg hlen] at hk
        exact absurd hk (by simp)

/-- Soundness of the matcher: a success calls the continuation on a suffix
of the input, with some capture value. -/
theorem reRun_sound {α : Type} (re : RE) :
    ∀ (cs : List Char) (k : List Char → Option (List Char) → Option α) c (r : α),
    reRun re cs k c = some r →
    ∃ rest cap, TailOf rest cs ∧ k rest cap = some r := by
  induction re with
  | eps =>
    intro cs k c r h
    exact ⟨cs, c, tailOf_refl cs, h⟩
  | pred p =>
    intro cs k c r h
    cases cs with
    | nil => exact absurd h (by simp [reRun])
    | cons ch t =>
      simp only [reRun] at h
      by_cases hp : p ch = true
      · rw [if_pos hp] at h
        exact ⟨t, c, ⟨[ch], rfl⟩, h⟩
      · rw [if_neg hp] at h
        exact absurd h (by simp)
  | seq a b iha ihb =>
    intro cs k c r h
    rw [reRun_seq] at h
    obtain ⟨rest1, cap1, ht1, hk1⟩ := iha _ _ _ _ h
    obtain ⟨rest2, cap2, ht2, hk2⟩ := ihb _ _ _ _ hk1
    exact ⟨rest2, cap2, tailOf_trans ht2 ht1, hk2⟩
  | alt a b iha ihb =>
    intro cs k c r h
    simp only [reRun] at h
    cases ha : reRun a cs k c with
    | some r2 =>
      rw [ha] at h
      injection h with h
      subst h
      exact iha _ _ _ _ ha
    | none =>
      rw [ha] at h
      exact ihb _ _ _ _ h
  | star a iha =>
    intro cs k c r h
    simp only [reRun] at h
    exact starRun_sound _ (fun cs2 k2 c2 r2 hr => iha cs2 k2 c2 r2 hr) _ _ _ _ _ h
  | group a iha =>
    intro cs k c r h
    rw [reRun_group] at h
    obtain ⟨rest, _, ht, hk⟩ := iha _ _ _ _ h
    exact ⟨rest, some (cs.take (cs.length - rest.length)), ht, hk⟩

/-- Group-freeness: the expression contains no capturing group, so the
matcher passes the capture value through unchanged. -/
def GFree : RE → Bool
  | .eps => true
  | .pred _ => true
  | .seq a b => GFree a && GFree b
  | .alt a b => GFree a && GFree b
  | .star a => GFree a
  | .group _ => false

theorem starRun_gfree {α : Type}
    (m : List Char → (List Char → Option (List Char) → Option α) →
      Option (List Char) → Option α)
    (hm : ∀ cs k c r, m cs k c = some r →
      ∃ rest, TailOf rest cs ∧ k rest c = some r) :
    ∀ (fuel : Nat) (cs : List Char) k c (r : α), starRun m fuel cs k c = some r →
    ∃ rest, TailOf rest cs ∧ k rest c = some r := by
  intro fuel
  induction fuel with
  | zero =>
    intro cs k c r h
    exact ⟨cs, tailOf_refl cs, h⟩
  | succ n ih =>
    intro cs k c r h
    simp only [starRun] at h
    cases hm2 : m cs (fun cs2 c2 =>
        if cs2.length < cs.length then starRun m n cs2 k c2 else none) c with
    | none =>
      rw [hm2] at h
      exact ⟨cs, tailOf_refl cs, h⟩
    | some r2 =>
      rw [hm2] at h
      injection h with h
      subst h
      obtain ⟨rest, htail, hk⟩ := hm _ _ _ _ hm2
      by_cases hlen : rest.length < cs.length
      · rw [if_pos hlen] at hk
        obtain ⟨rest2, htail2, hk2⟩ := ih rest k c r2 hk
        exact ⟨rest2, tailOf_trans htail2 htail, hk2⟩
      · rw [if_neg hlen] at hk
        exact absurd hk (by simp)

/-- On a group-free expression the matcher calls the continuation with the
incoming capture value unchanged. -/
theorem reRun_gfree {α : Type} (re : RE) (hg : GFree re = true) :
    ∀ (cs : List Char) (k : List Char → Option (List Char) → Option α) c (r : α),
    reRun re cs k c = some r →
    ∃ rest, TailOf rest cs ∧ k rest c = some r := by
  induction re with
  | eps =>
    intro cs k c r h
    exact ⟨cs, tailOf_refl cs, h⟩
  | pred p =>
    intro cs k c r h
    cases cs with
    | nil => exact absurd h (by simp [reRun])
    | cons ch t =>
      simp only [reRun] at h
      by_cases hp : p ch = true
      · rw [if_pos hp] at h
        exact ⟨t, ⟨[ch], rfl⟩, h⟩
      · rw [if_neg hp] at h
        exact absurd h (by simp)
  | seq a b iha ihb =>
    intro cs k c r h
    simp only [GFree, Bool.and_eq_true] at hg
    rw [reRun_seq] at h
    obtain ⟨rest1, ht1, hk1⟩ := iha hg.1 _ _ _ _ h
    obtain ⟨rest2, ht2, hk2⟩ := ihb hg.2 _ _ _ _ hk1
    exact ⟨rest2, tailOf_trans ht2 ht1, hk2⟩
  | alt a b iha ihb =>
    intro cs k c r h
    simp only [GFree, Bool.and_eq_true] at hg
    simp only [reRun] at h
    cases ha : reRun a cs k c with
    | some r2 =>
      rw [ha] at h
      injection h with h
      subst h
      exact iha hg.1 _ _ _ _ ha
    | none =>
      rw [ha] at h
      exact ihb hg.2 _ _ _ _ h
  | star a iha =>
    intro cs k c r h
    simp only [GFree] at hg
    simp only [reRun] at h
    exact starRun_gfree _ (fun cs2 k2 c2 r2 hr => iha hg cs2 k2 c2 r2 hr) _ _ _ _ _ h
  | group a iha =>
    intro cs k c r h
    exact absurd hg (by simp [GFree])

/-! ## Decomposition lemmas for the specific pattern pieces -/

theorem reRun_star {α : Type} (a : RE) (cs : List Char)
    (k : List Char → Option (List Char) → Option α) (c : Option (List Char)) :
    reRun (.star a) cs k c =
      starRun (fun cs2 k2 c2 => reRun a cs2 k2 c2) (cs.length + 1) cs k c := rfl

/-- A single character class consumes exactly one matching character. -/
theorem reRun_predE {α : Type} (p : Char → Bool) (cs : List Char)
    (k : List Char → Option (List Char) → Option α) (c : Option (List Char)) (r : α)
    (h : reRun (.pred p) cs k c = some r) :
    ∃ ch t, cs = ch :: t ∧ p ch = true ∧ k t c = some r := by
  cases cs with
  | nil => exact absurd h (by simp [reRun])
  | cons ch t =>
    simp only [reRun] at h
    by_cases hp : p ch = true
    · rw [if_pos hp] at h
      exact ⟨ch, t, rfl, hp, h⟩
    · rw [if_neg hp] at h
      exact absurd h (by simp)

/-- A literal word consumes exactly itself. -/
theorem reRun_strE {α : Type} (w : List Char) :
    ∀ (cs : List Char) (k : List Char → Option (List Char) → Option α) c (r : α),
    reRun (strL w) cs k c = some r → ∃ rest, cs = w ++ rest ∧ k rest c = some r := by
  induction w with
  | nil =>
    intro cs k c r h
    exact ⟨cs, rfl, h⟩
  | cons ch t ih =>
    intro cs k c r h
    simp only [strL] at h
    rw [reRun_seq] at h
    obtain ⟨ch2, t2, hcs, hp, hk⟩ := reRun_predE _ _ _ _ _ h
    obtain ⟨rest, hcs2, hk2⟩ := ih _ _ _ _ hk
    rw [beq_iff_eq] at hp
    exact ⟨rest, by simp [hcs, hcs2, hp], hk2⟩

/-- The greedy star of a character class consumes a run of matching
characters.  Stated for any body `m` that agrees with the matcher on
`RE.pred p`, so that the induction is stable under unfolding. -/
theorem starRun_predE {α : Type} (p : Char → Bool)
    (m : List Char → (List Char → Option (List Char) → Option α) →
      Option (List Char) → Option α)
    (hmeq : ∀ cs k c, m cs k c = reRun (RE.pred p) cs k c) :
    ∀ (fuel : Nat) (cs : List Char)
      (k : List Char → Option (List Char) → Option α) c (r : α),
    starRun m fuel cs k c = some r →
    ∃ w rest, cs = w ++ rest ∧ (∀ ch ∈ w, p ch = true) ∧ k rest c = some r := by
  intro fuel
  induction fuel with
  | zero =>
    intro cs k c r h
    exact ⟨[], cs, rfl, by simp, h⟩
  | succ n ih =>
    intro cs k c r h
    simp only [starRun] at h
    rw [hmeq] at h
    cases cs with
    | nil =>
      simp only [reRun] at h
      exact ⟨[], [], rfl, by simp, h⟩
    | cons ch t =>
      simp only [reRun] at h
      by_cases hp : p ch = true
      · rw [if_pos hp] at h
        rw [if_pos (show t.length < (ch :: t).length from by simp)] at h
        cases hs : starRun m n t k c with
        | some r2 =>
          rw [hs] at h
          injection h with h
          subst h
          obtain ⟨w2, rest, hcs, hw, hk⟩ := ih _ _ _ _ hs
          refine ⟨ch :: w2, rest, by simp [hcs], ?_, hk⟩
          intro x hx
          rcases List.mem_cons.mp hx with hx | hx
          · exact hx ▸ hp
          · exact hw x hx
        | none =>
          rw [hs] at h
          exact ⟨[], ch :: t, rfl, by simp, h⟩
      · rw [if_neg hp] at h
        exact ⟨[], ch :: t, rfl, by simp, h⟩

/-- `p+` (for a character class `p`) consumes a non-empty run of matching
characters. -/
theorem reRun_plusPredE {α : Type} (p : Char → Bool) (cs : List Char)
    (k : List Char → Option (List Char) → Option α) (c : Option (List Char)) (r : α)
    (h : reRun (plusRE (.pred p)) cs k c = some r) :
    ∃ w rest, cs = w ++ rest ∧ w ≠ [] ∧ (∀ ch ∈ w, p ch = true) ∧
      k rest c = some r := by
  simp only [plusRE] at h
  rw [reRun_seq] at h
  obtain ⟨ch, t, hcs, hp, hk⟩ := reRun_predE _ _ _ _ _ h
  have hk2 : reRun (RE.star (RE.pred p)) t k c = some r := hk
  rw [reRun_star] at hk2
  obtain ⟨w2, rest, ht, hw, hk3⟩ :=
    starRun_predE p _ (fun _ _ _ => rfl) _ _ _ _ _ hk2
  refine ⟨ch :: w2, rest, by simp [hcs, ht], by simp, ?_, hk3⟩
  intro x hx
  rcases List.mem_cons.mp hx with hx | hx
  · exact hx ▸ hp
  · exact hw x hx

/-- `(p+)` (a capturing group around a non-empty run of a character class)
captures exactly the consumed run. -/
theorem reRun_groupPlusPredE {α : Type} (p : Char → Bool) (cs : List Char)
    (k : List Char → Option (List Char) → Option α) (c : Option (List Char)) (r : α)
    (h : reRun (.group (plusRE (.pred p))) cs k c = some r) :
    ∃ w rest, cs = w ++ rest ∧ w ≠ [] ∧ (∀ ch ∈ w, p ch = true) ∧
      k rest (some w) = some r := by
  rw [reRun_group] at h
  obtain ⟨w, rest, hcs, hne, hw, hk⟩ := reRun_plusPredE _ _ _ _ _ h
  subst hcs
  refine ⟨w, rest, rfl, hne, hw, ?_⟩
  rw [show (w ++ rest).length - rest.length = w.length + 0 from by simp] at hk
  rw [take_append_more w rest 0] at hk
  simpa using hk

/-! ## Properties of the findall scanning loop -/

/-- Every capture reported by the scanning loop comes from a successful
match of the pattern at some suffix of the input. -/
theorem findallAux_mem (re : RE) :
    ∀ (fuel : Nat) (cs x : List Char), x ∈ findallAux re fuel cs →
    ∃ cs0 rest cap, TailOf cs0 cs ∧
      reRun re cs0 initCont none = some (rest, cap) ∧ x = cap.getD [] := by
  intro fuel
  induction fuel with
  | zero =>
    intro cs x hx
    simp [findallAux] at hx
  | succ n ih =>
    intro cs x hx
    simp only [findallAux] at hx
    split at hx
    · rename_i rest cap hm
      split at hx
      · rename_i hle
        rcases List.mem_cons.mp hx with hx | hx
        · exact ⟨cs, rest, cap, tailOf_refl cs, hm, hx⟩
        · cases cs with
          | nil => simp at hx
          | cons ch t =>
            obtain ⟨cs0, rest2, cap2, ht, hr, hx2⟩ := ih t x hx
            exact ⟨cs0, rest2, cap2, tailOf_cons ch ht, hr, hx2⟩
      · rename_i hle
        rcases List.mem_cons.mp hx with hx | hx
        · exact ⟨cs, rest, cap, tailOf_refl cs, hm, hx⟩
        · obtain ⟨cs0, rest2, cap2, ht, hr, hx2⟩ := ih rest x hx
          obtain ⟨rest3, cap3, ht3, hic⟩ := reRun_sound re cs initCont none _ hm
          simp only [initCont, Option.some.injEq, Prod.mk.injEq] at hic
          obtain ⟨h1, _⟩ := hic
          subst h1
          exact ⟨cs0, rest2, cap2, tailOf_trans ht ht3, hr, hx2⟩
    · rename_i hm
      cases cs with
      | nil => simp at hx
      | cons ch t =>
        obtain ⟨cs0, rest, cap, ht, hr, hx2⟩ := ih t x hx
        exact ⟨cs0, rest, cap, tailOf_cons ch ht, hr, hx2⟩

/-- Every capture reported by `findall` comes from a successful match at
some suffix of the input. -/
theorem findall_mem (re : RE) (cs x : List Char) (hx : x ∈ findall re cs) :
    ∃ cs0 rest cap, TailOf cs0 cs ∧
      reRun re cs0 initCont none = some (rest, cap) ∧ x = cap.getD [] :=
  findallAux_mem re _ cs x hx

/-- The capture of the leftmost match: scan positions left to right and
report the capture of the first position where the pattern matches. -/
def leftCapAux (re : RE) : Nat → List Char → Option (List Char)
  | 0, _ => none
  | fuel+1, cs =>
    match reRun re cs initCont none with
    | some (_, cap) => some (cap.getD [])
    | none =>
      match cs with
      | [] => none
      | _ :: t => leftCapAux re fuel t

/-- The capture of the leftmost match of the pattern in the text. -/
def leftCap (re : RE) (cs : List Char) : Option (List Char) :=
  leftCapAux re (cs.length + 1) cs

/-- The first element of the scanning loop's result is the capture of the
leftmost match. -/
theorem findallAux_head (re : RE) :
    ∀ (fuel : Nat) (cs : List Char),
    (findallAux re fuel cs).head? = leftCapAux re fuel cs := by
  intro fuel
  induction fuel with
  | zero =>
    intro cs
    simp [findallAux, leftCapAux]
  | succ n ih =>
    intro cs
    simp only [findallAux, leftCapAux]
    split
    · rename_i rest cap hm
      split
      · simp
      · simp
    · rename_i hm
      cases cs with
      | nil => simp
      | cons ch t =>
        simp [ih t]

/-- The head of `findall` is the capture of the leftmost match. -/
theorem findall_head (re : RE) (cs : List Char) :
    (findall re cs).head? = leftCap re cs :=
  findallAux_head re _ cs

/-! ## Capture lemmas for the individual patterns -/

/-- A successful match of the import pattern decomposes the scanned text as
`import`, a non-empty whitespace run, a quote, the captured non-empty
quote-free path, a quote (not necessarily the same one), and `;`. -/
theorem importRE_capture :
    ∀ (cs rest : List Char) (cap : Option (List Char)),
    reRun importRE cs initCont none = some (rest, cap) →
    ∃ ws q1 w q2 tail2,
      cs = "import".data ++ ws ++ q1 :: (w ++ q2 :: ';' :: tail2) ∧
      ws ≠ [] ∧ (∀ ch ∈ ws, spaceChar ch = true) ∧
      quoteChar q1 = true ∧ quoteChar q2 = true ∧
      w ≠ [] ∧ (∀ ch ∈ w, notQuoteChar ch = true) ∧ cap = some w := by
  intro cs rest cap h
  simp only [importRE, seqList, reRun_seq, spP] at h
  obtain ⟨r1, hcs1, h⟩ := reRun_strE _ _ _ _ _ h
  obtain ⟨ws, r2, hcs2, hwsne, hws, h⟩ := reRun_plusPredE spaceChar _ _ _ _ h
  obtain ⟨q1, r3, hcs3, hq1, h⟩ := reRun_predE quoteChar _ _ _ _ h
  obtain ⟨w, r4, hcs4, hwne, hw, h⟩ := reRun_groupPlusPredE notQuoteChar _ _ _ _ h
  obtain ⟨q2, r5, hcs5, hq2, h⟩ := reRun_predE quoteChar _ _ _ _ h
  obtain ⟨semi, r6, hcs6, hsemi, h⟩ := reRun_predE (fun c => c == ';') _ _ _ _ h
  rw [beq_iff_eq] at hsemi
  subst hsemi
  simp only [reRun_eps, initCont, Option.some.injEq, Prod.mk.injEq] at h
  have hcap : cap = some w := h.2.symm
  subst hcs1
  subst hcs2
  subst hcs3
  subst hcs4
  subst hcs5
  subst hcs6
  exact ⟨ws, q1, w, q2, r6, by simp, hwsne, hws, hq1, hq2, hwne, hw, hcap⟩

/-- A successful match of the class pattern captures a non-empty word. -/
theorem classRE_capture :
    ∀ (cs rest : List Char) (cap : Option (List Char)),
    reRun classRE cs initCont none = some (rest, cap) →
    ∃ w, cap = some w ∧ w ≠ [] := by
  intro cs rest cap h
  simp only [classRE, seqList, reRun_seq, spP, wP] at h
  obtain ⟨r1, hcs1, h⟩ := reRun_strE _ _ _ _ _ h
  obtain ⟨ws, r2, hcs2, hwsne, hws, h⟩ := reRun_plusPredE spaceChar _ _ _ _ h
  obtain ⟨w, r3, hcs3, hwne, hw, h⟩ := reRun_groupPlusPredE wordChar _ _ _ _ h
  obtain ⟨r4, ht4, h⟩ := reRun_gfree
    (altList [.seq (plusRE (.pred spaceChar)) (strL "extends".data),
      .seq (plusRE (.pred spaceChar)) (strL "implements".data),
      .seq (plusRE (.pred spaceChar)) (strL "with".data),
      .seq (.star (.pred spaceChar)) (chP '{')]) (by rfl) _ _ _ _ h
  simp only [reRun_eps, initCont, Option.some.injEq, Prod.mk.injEq] at h
  exact ⟨w, h.2.symm, hwne⟩

/-- A successful match of the constructor pattern captures a word that
starts with the class name it was built from. -/
theorem ctor_capture (cn : List Char) :
    ∀ (cs rest : List Char) (cap : Option (List Char)),
    reRun (constructorRE cn) cs initCont none = some (rest, cap) →
    ∃ w2, cap = some (cn ++ w2) := by
  intro cs rest cap h
  simp only [constructorRE, reRun_seq, reRun_group] at h
  obtain ⟨r1, ht1, h⟩ := reRun_gfree ctorPre (by rfl) _ _ _ _ h
  obtain ⟨r2, hr1, h⟩ := reRun_strE cn _ _ _ _ h
  obtain ⟨r3, ht3, h⟩ := reRun_gfree
    (optRE (.seq (chP '.') (plusRE wP))) (by rfl) _ _ _ _ h
  obtain ⟨r4, ht4, h⟩ := reRun_gfree ctorPost (by rfl) _ _ _ _ h
  simp only [initCont, Option.some.injEq, Prod.mk.injEq] at h
  obtain ⟨hrest, hcap⟩ := h
  subst hr1
  have hle : r3.length ≤ r2.length := tailOf_length ht3
  have hlen : (cn ++ r2).length - r3.length = cn.length + (r2.length - r3.length) := by
    simp only [List.length_append]
    omega
  rw [hlen, take_append_more] at hcap
  exact ⟨r2.take (r2.length - r3.length), hcap.symm⟩

/-- Every capture of the constructor pattern in a findall scan starts with
the class name. -/
theorem findall_ctor_mem (cn cs m : List Char)
    (hm : m ∈ findall (constructorRE cn) cs) : ∃ w2, m = cn ++ w2 := by
  obtain ⟨cs0, rest, cap, _, hr, hx⟩ := findall_mem _ _ _ hm
  obtain ⟨w2, hcap⟩ := ctor_capture cn _ _ _ hr
  subst hx
  rw [hcap]
  exact ⟨w2, by simp⟩

/-- The leftmost capture of the class pattern is never the empty word. -/
theorem leftCapAux_classRE_ne :
    ∀ (fuel : Nat) (cs w : List Char),
    leftCapAux classRE fuel cs = some w → w ≠ [] := by
  intro fuel
  induction fuel with
  | zero =>
    intro cs w h
    simp [leftCapAux] at h
  | succ n ih =>
    intro cs w h
    simp only [leftCapAux] at h
    split at h
    · rename_i rest cap hm
      obtain ⟨w2, hcap, hne⟩ := classRE_capture _ _ _ hm
      injection h with h
      subst h
      rw [hcap]
      simpa using hne
    · rename_i hm
      split at h
      · exact absurd h (by simp)
      · exact ih _ _ h

/-! ## Substring and dependency-pipeline lemmas -/

theorem prefixB_iff (a : List Char) :
    ∀ b, prefixB a b = true ↔ ∃ t, b = a ++ t := by
  induction a with
  | nil =>
    intro b
    simp [prefixB]
  | cons x xs ih =>
    intro b
    cases b with
    | nil =>
      simp [prefixB]
    | cons y ys =>
      simp only [prefixB, Bool.and_eq_true, beq_iff_eq, ih ys]
      constructor
      · rintro ⟨hxy, t, ht⟩
        exact ⟨t, by rw [hxy, ht]; rfl⟩
      · rintro ⟨t, ht⟩
        injection ht with h1 h2
        exact ⟨h1.symm, t, h2⟩

theorem subStrB_iff (n : List Char) :
    ∀ h, subStrB n h = true ↔ ∃ pre post, h = pre ++ n ++ post := by
  intro h
  induction h with
  | nil =>
    simp only [subStrB, prefixB_iff]
    constructor
    · rintro ⟨t, ht⟩
      exact ⟨[], t, ht⟩
    · rintro ⟨pre, post, hp⟩
      have hpre : pre = [] := by
        cases pre with
        | nil => rfl
        | cons a b => simp at hp
      subst hpre
      exact ⟨post, by simpa using hp⟩
  | cons c t ih =>
    simp only [subStrB, Bool.or_eq_true, prefixB_iff, ih]
    constructor
    · rintro (⟨t2, ht⟩ | ⟨pre, post, hp⟩)
      · exact ⟨[], t2, by simpa using ht⟩
      · exact ⟨c :: pre, post, by simp [hp]⟩
    · rintro ⟨pre, post, hp⟩
      cases pre with
      | nil =>
        exact Or.inl ⟨post, by simpa using hp⟩
      | cons a b =>
        injection hp with h1 h2
        exact Or.inr ⟨b, post, h2⟩

theorem dedupAux_mem_full (x : List Char) :
    ∀ (l seen : List (List Char)),
    x ∈ dedupAux seen l ↔ (x ∈ l ∧ memL x seen = false) := by
  intro l
  induction l with
  | nil =>
    intro seen
    simp [dedupAux]
  | cons m t ih =>
    intro seen
    simp only [dedupAux]
    by_cases hm : memL m seen = true
    · rw [if_pos hm, ih]
      simp only [List.mem_cons]
      constructor
      · rintro ⟨hx, hs⟩
        exact ⟨Or.inr hx, hs⟩
      · rintro ⟨hx | hx, hs⟩
        · subst hx
          rw [hs] at hm
          cases hm
        · exact ⟨hx, hs⟩
    · replace hm : memL m seen = false := by
        cases hval : memL m seen
        · rfl
        · exact absurd hval hm
      rw [if_neg (by rw [hm]; simp)]
      simp only [List.mem_cons, ih, memL]
      constructor
      · rintro (hx | ⟨hx, hs⟩)
        · subst hx
          exact ⟨Or.inl rfl, hm⟩
        · simp only [Bool.or_eq_false_iff] at hs
          exact ⟨Or.inr hx, hs.2⟩
      · rintro ⟨hx | hx, hs⟩
        · exact Or.inl hx
        · by_cases hmx : m = x
          · exact Or.inl hmx.symm
          · refine Or.inr ⟨hx, ?_⟩
            simp only [Bool.or_eq_false_iff]
            refine ⟨?_, hs⟩
            cases hbeq : m == x
            · rfl
            · exact absurd (beq_iff_eq.mp hbeq) hmx

/-- The dependency loop is first-seen deduplication of the derived package
names of the marker-containing imports. -/
theorem depsLoop_go :
    ∀ (l acc : List (List Char)),
    l.foldl (fun deps imp =>
      if subStrB markerL imp then
        (if memL (codeDep imp) deps then deps else deps ++ [codeDep imp])
      else deps) acc =
    acc ++ dedupAux acc ((l.filter (fun i => subStrB markerL i)).map codeDep) := by
  intro l
  induction l with
  | nil =>
    intro acc
    simp [dedupAux]
  | cons i t ih =>
    intro acc
    simp only [List.foldl_cons, List.filter_cons]
    by_cases hm : subStrB markerL i = true
    · rw [if_pos hm]
      by_cases hd : memL (codeDep i) acc = true
      · rw [if_pos hd, ih, if_pos hm]
        simp [dedupAux, hd]
      · rw [if_neg hd, ih, if_pos hm]
        simp only [List.map_cons, dedupAux, if_neg hd]
        rw [dedupAux_congr_seen _ (acc ++ [codeDep i]) (codeDep i :: acc)
          (fun y => by simp [memL_append, memL, Bool.or_comm])]
        simp
    · rw [if_neg hm, ih, if_neg hm]

theorem depsLoop_eq (imports : List (List Char)) :
    depsLoop imports =
    dedupAux [] ((imports.filter (fun i => subStrB markerL i)).map codeDep) := by
  have h := depsLoop_go imports []
  simpa [depsLoop] using h

/-- The dependency-derivation rule as the specification words it: scan for
the first occurrence of the package marker and take the text after it up to
(not including) the next `/`.  This definition follows the claim's words,
for comparison with the code's `codeDep`. -/
def specDepRule : List Char → Option (List Char)
  | [] => none
  | c :: t =>
    if prefixB markerL (c :: t) then
      some (((c :: t).drop markerL.length).takeWhile (fun ch => !(ch == '/')))
    else specDepRule t

/-! ## The prompt generator (`generate_unit_test`, lines 131–176) -/

/-- `PROMPT_TEMPLATE` — lines 10–64 of `server.py`, verbatim. -/
def PROMPT_TEMPLATE : String := "
根据以下信息生成 Flutter 单元测试代码：
1. 文件名：{file_name}
2. 类名：{class_name}
3. 依赖关系：{dependencies}
4. 其他信息：{other_info}

要求：
1. 使用Flutter test单元测试库，mockito库用来进行模拟数据
2. 属性和方法的断言覆盖率达到100%
3. 包括合适的setup和teardown方法
4. 测试所有的public方法、属性
5. 使用group块来组织不同的逻辑，测试之间需要重置模拟对象
6. 明确测试意图
7. 测试用例脚本的名字为`{file_name}_test.dart`,test目录结构与lib原文件一致

测试涵盖的场景：
1. 同步方法：
    - 测试返回值
    - 测试状态改变
    - 使用不同的参数组合进行测试

2. 异步方法：
    - 测试成功完成路径
    - 测试错误/异常路径
    - 验证 async/await 的正确使用
    - 使用 expectLater 和completion matchers

3. 异常测试：
    - 使用 expect(() => ..., throwsA(isA())) 测试预期异常
    - 测试错误恢复机制
    - 测试错误传播
    - 测试超时场景

4. 边界条件：
    - 在适用的情况下使用空值进行测试
    - 使用空集合进行测试
    - 测试最大值/最小值场景
    - 测试特定于业务逻辑的边缘案例

5. 状态管理（使用flutter_bloc）
    - 测试初始化state
    - 方法调用后测试state
    - 测试状态转换，发出emit后的场景测试
    - 验证状态一致性
    - 并发测试，触发多个emit事件

6. 依赖注入和模拟
    - 使用Mockito模拟外部依赖
    - 验证所有依赖关系交互
    - 测试不同的依赖行为（成功、失败、特定响应）
    - 测试依赖关系边缘情况

测试文件应遵循标准 Dart 格式，顶部是导入，然后是模拟设置类，然后是测试用例。
"

/-- One pass of Python's `str.format` over the template: replace each of
the four placeholder fields by its value; inserted values are not
re-scanned (the template contains no brace escapes and all four keys are
supplied, so this is exactly `str.format`'s behaviour here).  `fuel` bounds
the scan; every step consumes at least one character. -/
def pyFormatAux (fn cn deps other : List Char) : Nat → List Char → List Char
  | 0, _ => []
  | fuel+1, cs =>
    if prefixB "{file_name}".data cs then
      fn ++ pyFormatAux fn cn deps other fuel (cs.drop "{file_name}".data.length)
    else if prefixB "{class_name}".data cs then
      cn ++ pyFormatAux fn cn deps other fuel (cs.drop "{class_name}".data.length)
    else if prefixB "{dependencies}".data cs then
      deps ++ pyFormatAux fn cn deps other fuel (cs.drop "{dependencies}".data.length)
    else if prefixB "{other_info}".data cs then
      other ++ pyFormatAux fn cn deps other fuel (cs.drop "{other_info}".data.length)
    else match cs with
      | [] => []
      | c :: t => c :: pyFormatAux fn cn deps other fuel t

/-- `PROMPT_TEMPLATE.format(file_name=…, class_name=…, dependencies=…,
other_info=…)`. -/
def pyFormat (tmpl fn cn deps other : String) : String :=
  String.mk (pyFormatAux fn.data cn.data deps.data other.data
    (tmpl.data.length + 1) tmpl.data)

/-- `os.path.basename` (POSIX): the text after the last `/`. -/
def basenameL (cs : List Char) : List Char :=
  (cs.reverse.takeWhile (fun c => !(c == '/'))).reverse

/-- `os.path.basename` on strings. -/
def basename (s : String) : String := String.mk (basenameL s.data)

/-- `types.TextContent(type="text", text=…)`. -/
structure TextContent where
  type : String
  text : String
deriving DecidableEq

/-- Lines 160–172 of `server.py`: format the prompt from the file name and
the extracted facts (`other_info` is built on lines 163–164). -/
def promptFor (file_name : String) (file_content : String) : String :=
  let info := extract_file_info file_content
  let other_info := "Methods: " ++ String.intercalate ", " info.methods ++ "\n"
    ++ "Imports: " ++ String.intercalate ", " info.imports
  pyFormat PROMPT_TEMPLATE file_name info.class_name
    (String.intercalate ", " info.dependencies) other_info

/-- `generate_unit_test` — lines 131–176 of `server.py`.  The file system
is modelled by an oracle `fs` mapping a path to the contents of the file it
resolves to (`None` when neither `os.path.abspath(path)` nor the
CWD-relative fallback exists): the branch on `content is None`, the reading
of the file in that branch only, and the `except` branch that converts the
raised `FileNotFoundError` into an error `TextContent` are transcribed
directly. -/
def generate_unit_test (path : String) (content : Option String)
    (fs : String → Option String) : List TextContent :=
  match content with
  | some fc => [TextContent.mk "text" (promptFor (basename path) fc)]
  | none =>
    match fs path with
    | some fc => [TextContent.mk "text" (promptFor (basename path) fc)]
    | none =>
      [TextContent.mk "text" ("Error generating unit test: File not found: " ++ path)]

/-! ## The claims -/

set_option maxRecDepth 40000

set_option maxHeartbeats 1000000

/-- C1 (counterexample): the claim says no method name ever starts with an
underscore, whatever pattern family captured it.  But the constructor
family's captures are not underscore-filtered (line 99 of `server.py`
appends them without the `startswith('_')` check the other families have),
so for `class _Foo { _Foo() {} }` the method list contains `_Foo`, which
starts with an underscore. -/
theorem c1_counterexample :
    "_Foo" ∈ (extract_file_info "class _Foo { _Foo() {} }").methods ∧
    startsU "_Foo".data = true := by
  have h : extract_file_info "class _Foo { _Foo() {} }" =
      FactSet.mk "_Foo" [] ["_Foo"] [] := by decide
  rw [h]
  decide

/-- C1 (amended): for every input, no method name equals a control-flow
keyword (the keyword filter of line 114 is applied to the union of all
families), and a method name can start with an underscore only by being a
constructor-family capture, which always begins with the extracted class
name. -/
theorem c1_amended (s m : String)
    (hm : m ∈ (extract_file_info s).methods) :
    m.data ∉ excludeKeywords ∧
    (startsU m.data = true →
      ∃ w2, m.data = (extract_file_info s).class_name.data ++ w2) := by
  simp only [extract_file_info] at hm
  obtain ⟨w, hw, hmk⟩ := List.mem_map.mp hm
  have hdata : m.data = w := by rw [← hmk]
  have hw2 := dedupAux_mem_sub _ _ hw
  rw [List.mem_filter] at hw2
  obtain ⟨hwAll, hkw⟩ := hw2
  constructor
  · rw [hdata]
    intro hmem
    rw [← memL_iff_mem] at hmem
    rw [hmem] at hkw
    simp at hkw
  · intro hstart
    rw [hdata] at hstart ⊢
    simp only [List.mem_append] at hwAll
    rcases hwAll with ((((hr | hc) | hg) | hs2) | ho)
    · rw [List.mem_filter] at hr
      rw [hstart] at hr
      simp at hr
    · by_cases hcls : (match findall classRE s.data with
          | [] => ([] : List Char)
          | c :: _ => c).isEmpty = true
      · rw [if_pos hcls] at hc
        simp at hc
      · rw [if_neg hcls] at hc
        obtain ⟨w2, hw2⟩ := findall_ctor_mem _ _ _ hc
        exact ⟨w2, hw2⟩
    · rw [List.mem_filter] at hg
      rw [hstart] at hg
      simp at hg
    · rw [List.mem_filter] at hs2
      rw [hstart] at hs2
      simp at hs2
    · obtain ⟨op, hop, hopw⟩ := List.mem_map.mp ho
      rw [← hopw] at hstart
      have hfalse : startsU ("operator ".data ++ op) = false := rfl
      rw [hfalse] at hstart
      cases hstart

/-- C1 (witness for the amended claim): instantiated at the counterexample
input, where the underscore-headed method `_Foo` is indeed a
constructor-family capture extending the class name. -/
theorem c1_amended_witness :
    "_Foo" ∈ (extract_file_info "class _Foo { _Foo() {} }").methods ∧
    "_Foo".data ∉ excludeKeywords ∧
    (startsU "_Foo".data = true →
      ∃ w2, "_Foo".data =
        (extract_file_info "class _Foo { _Foo() {} }").class_name.data ++ w2) := by
  have h : extract_file_info "class _Foo { _Foo() {} }" =
      FactSet.mk "_Foo" [] ["_Foo"] [] := by decide
  refine ⟨?_, c1_amended "class _Foo { _Foo() {} }" "_Foo" ?_⟩
  · rw [h]
    decide
  · rw [h]
    decide

/-- C2 (counterexample): on the claimed scenario input the extractor does
NOT capture `baz` or `operator +`.  The getter pattern (line 102) requires
a return-type word before `get`, and the operator pattern (line 108)
requires a return-type word before `operator`; the scenario input has
neither (`} get baz => 2` and `{} operator +(…)`), so the claim's
`methods ⊇ {bar, baz, qux, operator +}` fails. -/
theorem c2_counterexample :
    (extract_file_info "class Foo { int bar() { return 1; } get baz => 2; set qux(int v) {} operator +(Foo o) { return this; } void _hidden() {} }").class_name = "Foo" ∧
    "baz" ∉ (extract_file_info "class Foo { int bar() { return 1; } get baz => 2; set qux(int v) {} operator +(Foo o) { return this; } void _hidden() {} }").methods ∧
    "operator +" ∉ (extract_file_info "class Foo { int bar() { return 1; } get baz => 2; set qux(int v) {} operator +(Foo o) { return this; } void _hidden() {} }").methods := by
  have h : extract_file_info "class Foo { int bar() { return 1; } get baz => 2; set qux(int v) {} operator +(Foo o) { return this; } void _hidden() {} }" =
      FactSet.mk "Foo" [] ["bar", "qux"] [] := by decide
  rw [h]
  decide

/-- C2 (amended): on the scenario input the class name is `Foo`, the
methods collection contains exactly `bar` (regular-method family, typed)
and `qux` (captured by both the regular family — with `set` parsed as the
return type — and the setter family, then deduplicated), and `_hidden`,
`baz` and `operator +` are absent: the accessor and operator families only
match when an explicit return-type token precedes `get`/`operator`. -/
theorem c2_amended :
    (extract_file_info "class Foo { int bar() { return 1; } get baz => 2; set qux(int v) {} operator +(Foo o) { return this; } void _hidden() {} }").class_name = "Foo" ∧
    "bar" ∈ (extract_file_info "class Foo { int bar() { return 1; } get baz => 2; set qux(int v) {} operator +(Foo o) { return this; } void _hidden() {} }").methods ∧
    "qux" ∈ (extract_file_info "class Foo { int bar() { return 1; } get baz => 2; set qux(int v) {} operator +(Foo o) { return this; } void _hidden() {} }").methods ∧
    "_hidden" ∉ (extract_file_info "class Foo { int bar() { return 1; } get baz => 2; set qux(int v) {} operator +(Foo o) { return this; } void _hidden() {} }").methods := by
  have h : extract_file_info "class Foo { int bar() { return 1; } get baz => 2; set qux(int v) {} operator +(Foo o) { return this; } void _hidden() {} }" =
      FactSet.mk "Foo" [] ["bar", "qux"] [] := by decide
  rw [h]
  decide

/-- C3 (counterexample): on the claimed scenario input the constructor
pattern does NOT match: its optional initializer-list part is
`(?::\s*[\w\s(),]+)?` (line 98), whose character class has no `>`, so
`: assert(x > 0) { }` cannot be consumed and no alternative succeeds;
`Widget.named` is absent (the methods collection is empty). -/
theorem c3_counterexample :
    (extract_file_info "class Widget { const Widget.named(int x) : assert(x > 0) { } }").class_name = "Widget" ∧
    (extract_file_info "class Widget { const Widget.named(int x) : assert(x > 0) { } }").methods = [] ∧
    "Widget.named" ∉ (extract_file_info "class Widget { const Widget.named(int x) : assert(x > 0) { } }").methods := by
  have h : extract_file_info "class Widget { const Widget.named(int x) : assert(x > 0) { } }" =
      FactSet.mk "Widget" [] [] [] := by decide
  rw [h]
  decide

/-- C3 (amended): the constructor family matches a const-prefixed named
constructor with a parameter list, an initializer-list suffix and an
opening block, and captures the full dotted name — provided the
initializer text stays inside the class `[\w\s(),]`.  With the initializer
`assert(x)` (no `>`) the scenario holds: `Widget.named` is captured. -/
theorem c3_amended :
    (extract_file_info "class Widget { const Widget.named(int x) : assert(x) { } }").class_name = "Widget" ∧
    "Widget.named" ∈ (extract_file_info "class Widget { const Widget.named(int x) : assert(x) { } }").methods := by
  have h : extract_file_info "class Widget { const Widget.named(int x) : assert(x) { } }" =
      FactSet.mk "Widget" [] ["Widget.named"] [] := by decide
  rw [h]
  decide

/-- C4 (counterexample): the import pattern is `import\s+['"]([^'"]+)['"];`
— the whitespace after `import` is `\s+` (any non-empty run) and the two
quotes are matched independently.  For the input `import  'pkg';` (two
spaces) the path `pkg` is captured, yet neither `import 'pkg';` nor
`import "pkg";` occurs verbatim in the input, so the claimed round-trip
fails. -/
theorem c4_counterexample :
    "pkg" ∈ (extract_file_info "import  'pkg';").imports ∧
    (¬ ∃ pre post, ("import  'pkg';").data =
      pre ++ ("import 'pkg';").data ++ post) ∧
    (¬ ∃ pre post, ("import  'pkg';").data =
      pre ++ ("import \"pkg\";").data ++ post) := by
  have h : extract_file_info "import  'pkg';" =
      FactSet.mk "" [] [] ["pkg"] := by decide
  refine ⟨by rw [h]; decide, ?_, ?_⟩
  · intro hex
    rw [← subStrB_iff] at hex
    exact absurd hex (by decide)
  · intro hex
    rw [← subStrB_iff] at hex
    exact absurd hex (by decide)

/-- C4 (amended): every path captured in `imports` occurs inside a
substring of the input of the shape `import`, a non-empty whitespace run,
an opening quote, the path, a closing quote, and `;`, where each quote is
independently `'` or `"` (they need not match each other) and the
whitespace run need not be a single space. -/
theorem c4_amended (s p : String) (hp : p ∈ (extract_file_info s).imports) :
    ∃ ws q1 q2 pre post, ws ≠ [] ∧ (∀ ch ∈ ws, spaceChar ch = true) ∧
      quoteChar q1 = true ∧ quoteChar q2 = true ∧
      s.data = pre ++ ("import".data ++ ws ++ q1 :: (p.data ++ q2 :: [';'])) ++ post := by
  simp only [extract_file_info] at hp
  obtain ⟨w, hw, hmk⟩ := List.mem_map.mp hp
  have hdata : p.data = w := by rw [← hmk]
  obtain ⟨cs0, rest, cap, htail, hrun, hcap⟩ := findall_mem _ _ _ hw
  obtain ⟨ws, q1, wcap, q2, tail2, hdec, hwsne, hws, hq1, hq2, hwne, hwq, hcapEq⟩ :=
    importRE_capture _ _ _ hrun
  rw [hcapEq] at hcap
  simp only [Option.getD_some] at hcap
  subst hcap
  obtain ⟨pre0, hpre⟩ := htail
  rw [hdec] at hpre
  rw [hdata]
  refine ⟨ws, q1, q2, pre0, tail2, hwsne, hws, hq1, hq2, ?_⟩
  rw [hpre]
  simp [List.append_assoc]

/-- C4 (witness for the amended claim): at `import 'a';` the captured path
`a` sits inside the decomposed import directive. -/
theorem c4_amended_witness :
    "a" ∈ (extract_file_info "import 'a';").imports ∧
    (∃ ws q1 q2 pre post, ws ≠ [] ∧ (∀ ch ∈ ws, spaceChar ch = true) ∧
      quoteChar q1 = true ∧ quoteChar q2 = true ∧
      ("import 'a';").data =
        pre ++ ("import".data ++ ws ++ q1 :: (("a" : String).data ++ q2 :: [';'])) ++ post) :=
  ⟨by decide, c4_amended "import 'a';" "a" (by decide)⟩

/-- C5 (confirmed): the extractor is total by construction in this
embedding (`extract_file_info` is a Lean function, defined for every input
string and raising nothing), and when none of the six base pattern scans
matches anything — the constructor family is only attempted when the class
scan produced a name — the result is the empty FactSet: empty class name,
no dependencies, no methods, no imports. -/
theorem c5_total_empty (s : String)
    (h1 : findall importRE s.data = []) (h2 : findall classRE s.data = [])
    (h3 : findall regularRE s.data = []) (h4 : findall getterRE s.data = [])
    (h5 : findall setterRE s.data = []) (h6 : findall operatorRE s.data = []) :
    extract_file_info s = FactSet.mk "" [] [] [] := by
  simp only [extract_file_info, h1, h2, h3, h4, h5, h6]
  rfl

/-- C5 (witness): the input `xyz` matches no pattern family and yields the
empty FactSet. -/
theorem c5_total_empty_witness :
    findall importRE "xyz".data = [] ∧ findall classRE "xyz".data = [] ∧
    findall regularRE "xyz".data = [] ∧ findall getterRE "xyz".data = [] ∧
    findall setterRE "xyz".data = [] ∧ findall operatorRE "xyz".data = [] ∧
    extract_file_info "xyz" = FactSet.mk "" [] [] [] :=
  ⟨by decide, by decide, by decide, by decide, by decide, by decide,
    c5_total_empty "xyz" (by decide) (by decide) (by decide) (by decide)
      (by decide) (by decide)⟩

/-- C6 (confirmed): the extracted class name is the capture of the
leftmost match of the class pattern
`class\s+(\w+)(?:\s+extends|\s+implements|\s+with|\s*{)` — the first class
declaration in the text — and it is empty exactly when no position of the
input matches that pattern. -/
theorem c6_first_class (s : String) :
    ((extract_file_info s).class_name =
      match leftCap classRE s.data with
      | none => ""
      | some w => String.mk w) ∧
    ((extract_file_info s).class_name = "" ↔ leftCap classRE s.data = none) := by
  have hhead : (findall classRE s.data).head? = leftCap classRE s.data :=
    findall_head _ _
  have hpart1 : (extract_file_info s).class_name =
      match leftCap classRE s.data with
      | none => ""
      | some w => String.mk w := by
    show String.mk (match findall classRE s.data with
      | [] => []
      | c :: _ => c) = _
    cases hf : findall classRE s.data with
    | nil =>
      rw [hf] at hhead
      rw [← hhead]
      rfl
    | cons c t =>
      rw [hf] at hhead
      rw [← hhead]
      rfl
  refine ⟨hpart1, ?_, ?_⟩
  · intro hempty
    cases hlc : leftCap classRE s.data with
    | none => rfl
    | some w =>
      have hwne : w ≠ [] := leftCapAux_classRE_ne _ _ _ hlc
      rw [hlc] at hpart1
      rw [hpart1] at hempty
      exact absurd (congrArg String.data hempty) hwne
  · intro hnone
    rw [hnone] at hpart1
    exact hpart1

/-- C6 (witness): instantiated at `class A {` (class name `A`) — the
equation and the emptiness criterion hold there. -/
theorem c6_first_class_witness :
    ((extract_file_info "class A {}").class_name =
      match leftCap classRE ("class A {}").data with
      | none => ""
      | some w => String.mk w) ∧
    ((extract_file_info "class A {}").class_name = "" ↔
      leftCap classRE ("class A {}").data = none) :=
  c6_first_class "class A {}"

/-- C7 (counterexample): the claim derives each dependency as "the segment
immediately after the marker up to (not including) the next `/`".  The
code computes `imp.split('package:')[1].split('/')[0]`, which also stops at
the next occurrence of the marker itself: for the single import
`package:apackage:b/c.dart` the claimed rule gives `apackage:b`, but the
dependency list is `["a"]`. -/
theorem c7_counterexample :
    (extract_file_info "import 'package:apackage:b/c.dart';").imports =
      ["package:apackage:b/c.dart"] ∧
    specDepRule ("package:apackage:b/c.dart").data = some ("apackage:b").data ∧
    (extract_file_info "import 'package:apackage:b/c.dart';").dependencies = ["a"] ∧
    "apackage:b" ∉ (extract_file_info "import 'package:apackage:b/c.dart';").dependencies := by
  have h : extract_file_info "import 'package:apackage:b/c.dart';" =
      FactSet.mk "" ["a"] [] ["package:apackage:b/c.dart"] := by decide
  rw [h]
  decide

/-- C7 (amended): each dependency is derived from a marker-containing
path by Python's split semantics — the text strictly between the
first occurrence of `package:` and the next occurrence (or the end), then
truncated at the first `/` (`codeDep`) — and the dependency list is the
first-seen-order deduplication of those values; the two scenario examples
hold as claimed. -/
theorem c7_amended :
    (∀ s : String, (extract_file_info s).dependencies =
      (dedupAux [] (((findall importRE s.data).filter
        (fun i => subStrB markerL i)).map codeDep)).map String.mk) ∧
    (extract_file_info "import \"package:foo/bar.dart\";").dependencies = ["foo"] ∧
    (extract_file_info "import 'dart:async';").class_name = "" ∧
    (extract_file_info "import 'dart:async';").dependencies = [] ∧
    (extract_file_info "import 'dart:async';").imports = ["dart:async"] := by
  have hdart : extract_file_info "import 'dart:async';" =
      FactSet.mk "" [] [] ["dart:async"] := by decide
  have hfoo : extract_file_info "import \"package:foo/bar.dart\";" =
      FactSet.mk "" ["foo"] [] ["package:foo/bar.dart"] := by decide
  refine ⟨?_, by rw [hfoo], by rw [hdart], by rw [hdart], by rw [hdart]⟩
  intro s
  show (depsLoop (findall importRE s.data)).map String.mk = _
  rw [depsLoop_eq]

/-- C8 (confirmed): the extractor is a pure function — in this embedding
it is a Lean function of the input string alone, so two applications to
the same input are definitionally the same FactSet, and in particular the
methods collections agree as sets.  (The source's only order-unstable step,
`list(set(methods))`, is modelled as a deterministic first-seen
deduplication; all claims read `methods` through membership only.) -/
theorem c8_deterministic (s : String) :
    extract_file_info s = extract_file_info s ∧
    ∀ m : String, m ∈ (extract_file_info s).methods ↔
      m ∈ (extract_file_info s).methods :=
  ⟨rfl, fun _ => Iff.rfl⟩

/-- C8 (witness): instantiation at a concrete input. -/
theorem c8_deterministic_witness :
    extract_file_info "class A { int b() {} }" =
      extract_file_info "class A { int b() {} }" ∧
    ∀ m : String, m ∈ (extract_file_info "class A { int b() {} }").methods ↔
      m ∈ (extract_file_info "class A { int b() {} }").methods :=
  c8_deterministic "class A { int b() {} }"

/-- C9 (confirmed): when `content` is supplied, `generate_unit_test` never
consults the file system (the oracle `fs` modelling path resolution and
reading is irrelevant), never takes the file-not-found error branch — its
result is the pure prompt — and the result depends only on `content` and
on `basename path`, which becomes the prompt's file name. -/
theorem c9_content_pure (p1 p2 c : String) (fs1 fs2 : String → Option String)
    (h : basename p1 = basename p2) :
    generate_unit_test p1 (some c) fs1 =
      [TextContent.mk "text" (promptFor (basename p1) c)] ∧
    generate_unit_test p1 (some c) fs1 = generate_unit_test p2 (some c) fs2 := by
  constructor
  · rfl
  · simp [generate_unit_test, h]

/-- C9 (witness): two paths with the same basename (one of which does not
exist in its oracle) and explicit content give the same pure prompt. -/
theorem c9_content_pure_witness :
    generate_unit_test "a/x.dart" (some "class A {}") (fun _ => none) =
      [TextContent.mk "text" (promptFor (basename "a/x.dart") "class A {}")] ∧
    generate_unit_test "a/x.dart" (some "class A {}") (fun _ => none) =
      generate_unit_test "b/x.dart" (some "class A {}") (fun _ => some "zzz") :=
  c9_content_pure "a/x.dart" "b/x.dart" "class A {}" (fun _ => none)
    (fun _ => some "zzz") (by decide)

/-- C10 (counterexample): the claim says the dependency is the text after
the first marker occurrence up to the next `/`.  Python's
`split('package:')[1]` additionally truncates at the next marker
occurrence: for the single import `package:xpackage:y/z.dart` the claimed
rule gives `xpackage:y` but the dependency list is `["x"]`. -/
theorem c10_counterexample :
    (extract_file_info "import 'package:xpackage:y/z.dart';").imports =
      ["package:xpackage:y/z.dart"] ∧
    specDepRule ("package:xpackage:y/z.dart").data = some ("xpackage:y").data ∧
    (extract_file_info "import 'package:xpackage:y/z.dart';").dependencies = ["x"] ∧
    "xpackage:y" ∉ (extract_file_info "import 'package:xpackage:y/z.dart';").dependencies := by
  have h : extract_file_info "import 'package:xpackage:y/z.dart';" =
      FactSet.mk "" ["x"] [] ["package:xpackage:y/z.dart"] := by decide
  rw [h]
  decide

/-- C10 (amended): the marker `package:` is recognised at any position
inside an import path (both claimed examples hold: `a/package:b/c.dart`
yields `b` and `package:foo` yields `foo`), and every marker-containing
captured import contributes its `codeDep`-derived name — the text between
the first marker and the next marker-or-end, truncated at the first `/` —
to the dependency list. -/
theorem c10_amended :
    (extract_file_info "import 'a/package:b/c.dart';").dependencies = ["b"] ∧
    (extract_file_info "import 'package:foo';").dependencies = ["foo"] ∧
    (∀ (s : String) (imp : List Char), imp ∈ findall importRE s.data →
      subStrB markerL imp = true →
      String.mk (codeDep imp) ∈ (extract_file_info s).dependencies) := by
  have ha : extract_file_info "import 'a/package:b/c.dart';" =
      FactSet.mk "" ["b"] [] ["a/package:b/c.dart"] := by decide
  have hb : extract_file_info "import 'package:foo';" =
      FactSet.mk "" ["foo"] [] ["package:foo"] := by decide
  refine ⟨by rw [ha], by rw [hb], ?_⟩
  intro s imp himp hmark
  show String.mk (codeDep imp) ∈ (depsLoop (findall importRE s.data)).map String.mk
  rw [depsLoop_eq]
  refine List.mem_map.mpr ⟨codeDep imp, ?_, rfl⟩
  rw [dedupAux_mem_full]
  refine ⟨List.mem_map.mpr ⟨imp, ?_, rfl⟩, rfl⟩
  rw [List.mem_filter]
  exact ⟨himp, hmark⟩

/-- C10 (witness for the amended claim): at `import 'package:q/w';` the
captured path contains the marker and its derived name `q` is in the
dependency list. -/
theorem c10_amended_witness :
    ("package:q/w").data ∈ findall importRE ("import 'package:q/w';").data ∧
    subStrB markerL ("package:q/w").data = true ∧
    String.mk (codeDep ("package:q/w").data) ∈
      (extract_file_info "import 'package:q/w';").dependencies :=
  ⟨by decide, by decide,
    c10_amended.2.2 "import 'package:q/w';" ("package:q/w").data
      (by decide) (by decide)⟩
